import Mathlib

/-!
Verification of the event-loop lag monitor and worker-thread pool scheduler
of the advanced-node-concepts repository.

The JavaScript source is shallowly embedded: pure loops become Lean
functions, the event-driven pool scheduler becomes an explicit transition
system over a `PoolState`, and nondeterminism (worker completion order,
timer interleavings, `Math.random`) is captured by quantifying over event
schedules and oracle functions.  Machine floats carrying only injected
values or exactly-representable integer arithmetic are modelled by `ℚ`
and `ℕ`.
-/

namespace NodeDemo

/-! ## Lag monitor: bounded history window

`monitorEventLoop` pushes each new lag sample and evicts the oldest
sample once the history exceeds 100 entries:

  this.lagHistory.push(actualLag);
  if (this.lagHistory.length > 100) { this.lagHistory.shift(); }
-/

def pushSample {α : Type} (history : List α) (sample : α) : List α :=
  if (history ++ [sample]).length > 100 then (history ++ [sample]).tail
  else history ++ [sample]

/-- The lag history after `n` ticks whose samples are given by `s`. -/
def histAfter {α : Type} (s : ℕ → α) (n : ℕ) : List α :=
  (List.range n).foldl (fun h i => pushSample h (s i)) []

/-! ## Lag monitor: one tick of `monitorEventLoop`

On each firing the monitor computes

  expectedTime = lastCheck + 16        (16ms = approx 60fps frame budget)
  actualLag    = now - expectedTime

pushes the sample, recomputes average / min / max over the window, sets
`lastCheck = now`, and re-arms itself with `setTimeout(..., 1000)`, i.e.
1000 ms measured from `now`.
-/

def frameBudgetMs : ℚ := 16

def rearmDelayMs : ℚ := 1000

structure MonitorTickState where
  lastCheck : ℚ
  lagHistory : List ℚ
deriving DecidableEq, Repr

structure TickOutput where
  lag : ℚ
  avgLag : ℚ
  minLag : ℚ
  maxLag : ℚ
  nextTickAt : ℚ
deriving DecidableEq, Repr

/-- Math.max over a nonempty argument list (empty list never occurs here). -/
def listMax : List ℚ → ℚ
  | [] => 0
  | x :: xs => xs.foldl max x

/-- Math.min over a nonempty argument list. -/
def listMin : List ℚ → ℚ
  | [] => 0
  | x :: xs => xs.foldl min x

def monitorTick (s : MonitorTickState) (now : ℚ) : MonitorTickState × TickOutput :=
  let expectedTime := s.lastCheck + frameBudgetMs
  let actualLag := now - expectedTime
  let hist := pushSample s.lagHistory actualLag
  let avgLag := hist.sum / hist.length
  let maxLag := listMax hist
  let minLag := listMin hist
  (⟨now, hist⟩, ⟨actualLag, avgLag, minLag, maxLag, now + rearmDelayMs⟩)

/-! ## Lag monitor: session lifecycle

`startMonitoring` sets `monitoring = true` and starts the recurring
`monitorEventLoop` chain; `waitForStop` resolves only through a single
`setTimeout` of 30000 ms that sets `monitoring = false`.  No handler for
an external stop signal is installed (the readline input is not consumed,
SIGINT is deliberately not used).  A `monitorFire` event models the
pending `setTimeout(() => this.monitorEventLoop(), 1000)` callback: when
`monitoring` is false the callback returns immediately without re-arming.
-/

def maxDurationMs : ℕ := 30000

structure Session where
  monitoring : Bool
  monitorArmed : Bool
  ticks : ℕ
deriving DecidableEq, Repr

inductive SessEvent where
  | monitorFire
  | autoStopFire
  | stopSignal
deriving DecidableEq, Repr

def sessStep (s : Session) : SessEvent → Session
  | .monitorFire =>
    if s.monitorArmed then
      if s.monitoring then { s with ticks := s.ticks + 1 }
      else { s with monitorArmed := false }
    else s
  | .autoStopFire => if s.monitoring then { s with monitoring := false } else s
  | .stopSignal => s

/-- State right after `startMonitoring` has started the monitor chain. -/
def sessionStart : Session := ⟨true, true, 0⟩

/-! ## Blocking demo: interruptible infinite loop

`infiniteLoop` runs `while (!shouldStop)`, and each iteration performs
1,000,000 inner iterations of work followed by one
`await new Promise(resolve => setImmediate(resolve))` yield.  A
`setTimeout` of 10000 ms sets `shouldStop` as a hard backstop, and a
readline watcher may set it earlier.  `shouldStop r` is the value of the
flag observed by the `r`-th check of the while condition; since the flag
is only ever set (never cleared) it is monotone in `r`.
-/

def chunkInnerIterations : ℕ := 1000000

def infiniteLoopMaxDurationMs : ℕ := 10000

inductive LoopEvent where
  | check (stop : Bool)
  | chunk (iters : ℕ)
  | yieldCtl
deriving DecidableEq, Repr

def infiniteLoopTrace (shouldStop : ℕ → Bool) : ℕ → ℕ → List LoopEvent
  | 0, _ => []
  | fuel + 1, r =>
    if shouldStop r then [.check true]
    else .check false :: .chunk chunkInnerIterations :: .yieldCtl ::
      infiniteLoopTrace shouldStop fuel (r + 1)

def chunksIn (tr : List LoopEvent) : ℕ :=
  tr.countP fun e => match e with | .chunk _ => true | _ => false

def checksIn (tr : List LoopEvent) : ℕ :=
  tr.countP fun e => match e with | .check _ => true | _ => false

def yieldsIn (tr : List LoopEvent) : ℕ :=
  tr.countP fun e => match e with | .yieldCtl => true | _ => false

/-! ## Blocking demo: asyncVsSync chunked accumulation

The synchronous loop adds `i` for `i` in `[0, iterations)`.  The
asynchronous variant proceeds in chunks of 10000: for each chunk start
`i` it adds `j` for `j` in `[i, min(i + 10000, iterations))`.
-/

def asyncChunkSize : ℕ := 10000

def syncLoopSum (iterations : ℕ) : ℕ :=
  (List.range iterations).foldl (fun acc i => acc + i) 0

def asyncLoopGo (iterations i acc : ℕ) : ℕ :=
  if i < iterations then
    asyncLoopGo iterations (i + asyncChunkSize)
      ((List.range' i (min (i + asyncChunkSize) iterations - i)).foldl
        (fun a j => a + j) acc)
  else acc
termination_by iterations - i
decreasing_by
  simp_wf
  have hC : asyncChunkSize = 10000 := rfl
  omega

def asyncLoopSum (iterations : ℕ) : ℕ := asyncLoopGo iterations 0 0

/-! ## Shared-memory parallel processing: range partition

`parallelProcessing` splits `[0, bufferSize)` across `workerCount`
workers:

  chunkSize  = Math.floor(bufferSize / workerCount)
  startIndex = i * chunkSize
  endIndex   = i === workerCount - 1 ? bufferSize : (i + 1) * chunkSize
-/

def chunkSizeOf (bufferSize workerCount : ℕ) : ℕ := bufferSize / workerCount

def workerStartIndex (bufferSize workerCount i : ℕ) : ℕ :=
  i * chunkSizeOf bufferSize workerCount

def workerEndIndex (bufferSize workerCount i : ℕ) : ℕ :=
  if i = workerCount - 1 then bufferSize
  else (i + 1) * chunkSizeOf bufferSize workerCount

/-! ## Shared-memory workers: write traces

`cpu-worker.js` mutates the shared `Int32Array` either with plain indexed
assignment (`processSharedMemory`, disjoint ranges) or exclusively with
`Atomics.store` (`updateSharedMemory`, random overlapping indices).  A
write trace records each in-place element mutation together with the
primitive used.  `Math.random`-derived indices and values are supplied as
oracles.
-/

inductive WriteOp where
  | atomicStore (index value : ℤ)
  | plainStore (index value : ℤ)
deriving DecidableEq, Repr

def WriteOp.isAtomic : WriteOp → Bool
  | .atomicStore _ _ => true
  | .plainStore _ _ => false

/-- Trace of `updateSharedMemory(sharedArray, updateCount, workerId)`:
a loop of `updateCount` iterations, each performing exactly one
`Atomics.store(sharedArray, randomIndex, randomValue)`.  It returns the
trace together with `updatesPerformed`. -/
def updateSharedMemory (updateCount : ℕ) (randIndex : ℕ → ℤ) (randValue : ℕ → ℤ) :
    List WriteOp × ℕ :=
  ((List.range updateCount).map fun i => WriteOp.atomicStore (randIndex i) (randValue i),
    updateCount)

/-- Trace of `processSharedMemory` for the square operation: plain indexed
assignment `sharedArray[i] = sharedArray[i] * sharedArray[i]` over the
assigned `[startIndex, endIndex)` range. -/
def processSharedMemorySquare (buf : ℕ → ℤ) (startIndex endIndex : ℕ) :
    List WriteOp × ℕ :=
  ((List.range' startIndex (endIndex - startIndex)).map fun i =>
      WriteOp.plainStore (Int.ofNat i) (buf i * buf i),
    endIndex - startIndex)

def concurrentUpdatesWorkerCount : ℕ := 4

/-- `concurrentUpdates` spawns 4 workers of type shared-memory-update, each
performing `Math.floor(updateCount / 4)` updates; the result is the list
of the four per-worker write traces. -/
def concurrentUpdates (updateCount : ℕ) (randIndex randValue : ℕ → ℕ → ℤ) :
    List (List WriteOp) :=
  (List.range concurrentUpdatesWorkerCount).map fun w =>
    (updateSharedMemory (updateCount / concurrentUpdatesWorkerCount)
      (randIndex w) (randValue w)).1

/-! ## Worker pool scheduler

`processTasksWithPool(tasks)` keeps a pending FIFO (`shift` from the
front), a results array `new Array(tasks.length)` indexed by task id, and
a `processNextTask` closure:

  - pending empty: `resolve(results)` and return;
  - otherwise find the first worker with `busy === false`; if none,
    `setTimeout(processNextTask, 10)` and return;
  - otherwise mark it busy, `postMessage` the head task, and install a
    one-shot message handler that stores `results[task.id] = result`,
    marks the worker idle, and calls `processNextTask` again.

`processNextTask` runs once at scheduling time, once per delivered
result, and once per fired poll timer; worker completions are delivered
in an arbitrary order, modelled by an arbitrary list of `PoolEvent`s.
The executor's `reject` is never invoked: `pool-worker.js` wraps
`processTask` in try/catch and posts `{ error: message }` as an ordinary
message, and no worker-level error listener is installed.
-/

structure Task where
  id : ℕ
  complexity : ℕ
deriving DecidableEq, Repr

/-- A message posted back by `pool-worker.js`: the computed value on
success, or the `{ error: message }` object when `processTask` threw. -/
inductive WorkerMsg (β : Type) where
  | ok (value : β)
  | err (message : String)
deriving DecidableEq, Repr

/-- The execution of `processTask` inside the worker: `Except.error`
models a thrown exception (e.g. an unknown task type). -/
def poolWorkerRespond {β : Type} (exec : Task → Except String β) (task : Task) :
    WorkerMsg β :=
  match exec task with
  | .ok v => .ok v
  | .error e => .err e

structure PoolWorker where
  busy : Bool
  inflight : Option Task
deriving DecidableEq, Repr

structure PoolState (β : Type) where
  pending : List Task
  workers : List PoolWorker
  results : List (Option (WorkerMsg β))
  queuedPolls : ℕ
  resolvedVal : Option (List (Option (WorkerMsg β)))
  rejectedVal : Option String
deriving DecidableEq, Repr

/-- Index of the first worker with `busy === false` (JS `find`). -/
def findIdleWorker : List PoolWorker → Option ℕ
  | [] => none
  | w :: ws => if w.busy then (findIdleWorker ws).map (· + 1) else some 0

def processNextTask {β : Type} (s : PoolState β) : PoolState β :=
  match s.pending with
  | [] =>
    match s.resolvedVal with
    | some _ => s
    | none => { s with resolvedVal := some s.results }
  | task :: rest =>
    match findIdleWorker s.workers with
    | none => { s with queuedPolls := s.queuedPolls + 1 }
    | some w =>
      { s with pending := rest,
               workers := s.workers.set w ⟨true, some task⟩ }

/-- Body of the one-shot message handler, before it recurses into
`processNextTask`: store the result at `results[task.id]` and mark the
worker idle again. -/
def handleResult {β : Type} (s : PoolState β) (w : ℕ) (msg : WorkerMsg β)
    (task : Task) : PoolState β :=
  { s with results := s.results.set task.id (some msg),
           workers := s.workers.set w ⟨false, none⟩ }

inductive PoolEvent where
  | deliver (w : ℕ)
  | pollTimer
deriving DecidableEq, Repr

def poolStep {β : Type} (exec : Task → Except String β) (s : PoolState β) :
    PoolEvent → PoolState β
  | .deliver w =>
    match s.workers.get? w with
    | none => s
    | some pw =>
      match pw.inflight with
      | none => s
      | some task => processNextTask (handleResult s w (poolWorkerRespond exec task) task)
  | .pollTimer =>
    if s.queuedPolls = 0 then s
    else processNextTask { s with queuedPolls := s.queuedPolls - 1 }

def initPoolState {β : Type} (tasks : List Task) (poolSize : ℕ) : PoolState β :=
  { pending := tasks,
    workers := List.replicate poolSize ⟨false, none⟩,
    results := List.replicate tasks.length none,
    queuedPolls := 0,
    resolvedVal := none,
    rejectedVal := none }

/-- State right after `processTasksWithPool` has run the initial
`processNextTask()` call. -/
def scheduleStart {β : Type} (tasks : List Task) (poolSize : ℕ) : PoolState β :=
  processNextTask (initPoolState tasks poolSize)

def poolRun {β : Type} (exec : Task → Except String β) (tasks : List Task)
    (poolSize : ℕ) (evs : List PoolEvent) : PoolState β :=
  evs.foldl (poolStep exec) (scheduleStart tasks poolSize)

def inflightCount {β : Type} (s : PoolState β) : ℕ :=
  s.workers.countP fun w => w.inflight.isSome

/-! ## Worker pool scheduler: invariant -/

/-- Invariant of the scheduling loop, for a batch `tasks` whose worker
responses are computed by `f`. -/
structure PoolInv {β : Type} (f : Task → WorkerMsg β) (tasks : List Task)
    (s : PoolState β) : Prop where
  results_len : s.results.length = tasks.length
  no_polls : s.queuedPolls = 0
  inflight_le : inflightCount s ≤ 1
  busy_iff : ∀ wi pw, s.workers.get? wi = some pw → pw.busy = pw.inflight.isSome
  inflight_mem : ∀ wi pw task, s.workers.get? wi = some pw →
    pw.inflight = some task → task ∈ tasks
  pending_mem : ∀ t ∈ s.pending, t ∈ tasks
  accounted : ∀ t ∈ tasks, t ∈ s.pending ∨
    (∃ wi pw, s.workers.get? wi = some pw ∧ pw.inflight = some t) ∨
    s.results.get? t.id = some (some (f t))
  resolved_good : ∀ arr, s.resolvedVal = some arr →
    arr.length = tasks.length ∧ ∀ t ∈ tasks, arr.get? t.id = some (some (f t))
  rejected_none : s.rejectedVal = none
  workers_ne : s.workers ≠ []

/-! ## Concrete instances used by witnesses -/

def tasksW : List Task := [⟨0, 5⟩, ⟨1, 6⟩, ⟨2, 7⟩]

def execOkW : Task → Except String ℕ := fun t => Except.ok t.complexity

def execErrW : Task → Except String ℕ := fun t =>
  if t.id = 1 then Except.error "boom" else Except.ok t.complexity

def deliverThrice : List PoolEvent := [.deliver 0, .deliver 0, .deliver 0]

/-- A mid-schedule state: after the first completion, worker 0 holds the
task with id 1 (the one `execErrW` makes throw). -/
def poolMidState : PoolState ℕ :=
  poolStep execErrW (scheduleStart tasksW 2) (.deliver 0)

def sampleFun : ℕ → ℚ := fun i => (i : ℚ)

/-! ## Theorems -/

/-! ## Small list helpers (index-based `get?`, `set`, `countP`) -/

theorem get?_some_lt {α : Type} :
    ∀ (l : List α) (i : ℕ) (a : α), l.get? i = some a → i < l.length := by
  intro l
  induction l with
  | nil => intro i a h; simp [List.get?] at h
  | cons x xs ih =>
    intro i a h
    cases i with
    | zero => simp
    | succ j =>
      simp only [List.get?] at h
      have := ih j a h
      simp
      omega

theorem get?_some_mem {α : Type} :
    ∀ (l : List α) (i : ℕ) (a : α), l.get? i = some a → a ∈ l := by
  intro l
  induction l with
  | nil => intro i a h; simp [List.get?] at h
  | cons x xs ih =>
    intro i a h
    cases i with
    | zero =>
      simp only [List.get?] at h
      cases h
      exact List.mem_cons_self _ _
    | succ j =>
      simp only [List.get?] at h
      exact List.mem_cons_of_mem x (ih j a h)

theorem get?_set_self {α : Type} :
    ∀ (l : List α) (i : ℕ) (a : α), i < l.length → (l.set i a).get? i = some a := by
  intro l
  induction l with
  | nil => intro i a h; simp at h
  | cons x xs ih =>
    intro i a h
    cases i with
    | zero => simp [List.set]
    | succ j =>
      simp only [List.set, List.get?]
      exact ih j a (by simp at h; omega)

theorem get?_set_ne {α : Type} :
    ∀ (l : List α) (i j : ℕ) (a : α), i ≠ j → (l.set i a).get? j = l.get? j := by
  intro l
  induction l with
  | nil => intro i j a h; simp [List.set]
  | cons x xs ih =>
    intro i j a h
    cases i with
    | zero =>
      cases j with
      | zero => exact absurd rfl h
      | succ j' => simp [List.set]
    | succ i' =>
      cases j with
      | zero => simp [List.set]
      | succ j' =>
        simp only [List.set, List.get?]
        exact ih i' j' a (by omega)

theorem countP_set {α : Type} (p : α → Bool) :
    ∀ (l : List α) (i : ℕ) (a b : α), l.get? i = some a →
      ((l.set i b).countP p) + (if p a then 1 else 0) =
        (l.countP p) + (if p b then 1 else 0) := by
  intro l
  induction l with
  | nil => intro i a b h; simp [List.get?] at h
  | cons x xs ih =>
    intro i a b h
    cases i with
    | zero =>
      simp only [List.get?] at h
      cases h
      simp only [List.set, List.countP_cons]
      omega
    | succ j =>
      simp only [List.get?] at h
      simp only [List.set, List.countP_cons]
      have := ih j a b h
      omega

theorem pushSample_eq_drop {α : Type} (h : List α) (x : α) (hh : h.length ≤ 100) :
    pushSample h x = (h ++ [x]).drop (h.length + 1 - 100) := by
  unfold pushSample
  split
  · next hgt =>
    have hlen : h.length = 100 := by
      simp only [List.length_append, List.length_singleton] at hgt
      omega
    have h1 : h.length + 1 - 100 = 1 := by omega
    rw [h1, ← List.drop_one]
  · next hle =>
    have hlen : h.length + 1 ≤ 100 := by
      simp only [gt_iff_lt, not_lt, List.length_append, List.length_singleton] at hle
      omega
    have h0 : h.length + 1 - 100 = 0 := by omega
    rw [h0, List.drop_zero]

theorem histAfter_eq_drop {α : Type} (s : ℕ → α) (n : ℕ) :
    histAfter s n = ((List.range n).map s).drop (n - 100) := by
  induction n with
  | zero => rfl
  | succ n ih =>
    have hstep : histAfter s (n + 1) = pushSample (histAfter s n) (s n) := by
      unfold histAfter
      rw [List.range_succ, List.foldl_append]
      rfl
    have hlenmap : ((List.range n).map s).length = n := by simp
    have hlen : (((List.range n).map s).drop (n - 100)).length = n - (n - 100) := by
      rw [List.length_drop, hlenmap]
    have hle : (((List.range n).map s).drop (n - 100)).length ≤ 100 := by omega
    rw [hstep, ih, pushSample_eq_drop _ _ hle, hlen]
    have hsplit : ((List.range n).map s).drop (n - 100) ++ [s n] =
        (((List.range n).map s) ++ [s n]).drop (n - 100) := by
      rw [List.drop_append_of_le_length (by omega)]
    rw [hsplit, List.drop_drop]
    have hmap : ((List.range (n + 1)).map s) = ((List.range n).map s) ++ [s n] := by
      rw [List.range_succ, List.map_append, List.map_singleton]
    rw [hmap]
    have harith : n - 100 + (n - (n - 100) + 1 - 100) = n + 1 - 100 := by omega
    rw [harith]

theorem histAfter_length_le {α : Type} (s : ℕ → α) (n : ℕ) :
    (histAfter s n).length ≤ 100 := by
  rw [histAfter_eq_drop, List.length_drop]
  simp
  omega

theorem foldl_max_mem (a : ℚ) (l : List ℚ) : l.foldl max a = a ∨ l.foldl max a ∈ l := by
  induction l generalizing a with
  | nil => left; rfl
  | cons x xs ih =>
    rcases ih (max a x) with h | h
    · rcases le_total a x with hax | hax
      · right
        rw [List.foldl_cons, h, max_eq_right hax]
        exact List.mem_cons_self _ _
      · left
        rw [List.foldl_cons, h, max_eq_left hax]
    · right
      exact List.mem_cons_of_mem _ h

theorem le_foldl_max (a : ℚ) (l : List ℚ) : a ≤ l.foldl max a ∧ ∀ y ∈ l, y ≤ l.foldl max a := by
  induction l generalizing a with
  | nil => exact ⟨le_refl a, by intro y hy; simp at hy⟩
  | cons x xs ih =>
    obtain ⟨h1, h2⟩ := ih (max a x)
    refine ⟨le_trans (le_max_left a x) h1, ?_⟩
    intro y hy
    rcases List.mem_cons.mp hy with rfl | hy'
    · exact le_trans (le_max_right a y) h1
    · exact h2 y hy'

theorem foldl_min_mem (a : ℚ) (l : List ℚ) : l.foldl min a = a ∨ l.foldl min a ∈ l := by
  induction l generalizing a with
  | nil => left; rfl
  | cons x xs ih =>
    rcases ih (min a x) with h | h
    · rcases le_total a x with hax | hax
      · left
        rw [List.foldl_cons, h, min_eq_left hax]
      · right
        rw [List.foldl_cons, h, min_eq_right hax]
        exact List.mem_cons_self _ _
    · right
      exact List.mem_cons_of_mem _ h

theorem foldl_min_le (a : ℚ) (l : List ℚ) : l.foldl min a ≤ a ∧ ∀ y ∈ l, l.foldl min a ≤ y := by
  induction l generalizing a with
  | nil => exact ⟨le_refl a, by intro y hy; simp at hy⟩
  | cons x xs ih =>
    obtain ⟨h1, h2⟩ := ih (min a x)
    refine ⟨le_trans h1 (min_le_left a x), ?_⟩
    intro y hy
    rcases List.mem_cons.mp hy with rfl | hy'
    · exact le_trans h1 (min_le_right a y)
    · exact h2 y hy'

theorem listMax_spec (l : List ℚ) (hl : l ≠ []) :
    listMax l ∈ l ∧ ∀ y ∈ l, y ≤ listMax l := by
  match l with
  | [] => exact absurd rfl hl
  | x :: xs =>
    constructor
    · rcases foldl_max_mem x xs with h | h
      · rw [listMax, h]; exact List.mem_cons_self _ _
      · exact List.mem_cons_of_mem _ (by rw [listMax]; exact h)
    · intro y hy
      obtain ⟨h1, h2⟩ := le_foldl_max x xs
      rcases List.mem_cons.mp hy with rfl | hy'
      · exact h1
      · exact h2 y hy'

theorem listMin_spec (l : List ℚ) (hl : l ≠ []) :
    listMin l ∈ l ∧ ∀ y ∈ l, listMin l ≤ y := by
  match l with
  | [] => exact absurd rfl hl
  | x :: xs =>
    constructor
    · rcases foldl_min_mem x xs with h | h
      · rw [listMin, h]; exact List.mem_cons_self _ _
      · exact List.mem_cons_of_mem _ (by rw [listMin]; exact h)
    · intro y hy
      obtain ⟨h1, h2⟩ := foldl_min_le x xs
      rcases List.mem_cons.mp hy with rfl | hy'
      · exact h1
      · exact h2 y hy'

theorem pushSample_ne_nil {α : Type} (h : List α) (x : α) : pushSample h x ≠ [] := by
  unfold pushSample
  split
  · next hgt =>
    intro hcontra
    have := congrArg List.length hcontra
    simp only [List.length_tail, List.length_append, List.length_singleton,
      List.length_nil] at this
    simp only [gt_iff_lt, List.length_append, List.length_singleton] at hgt
    omega
  · intro hcontra
    have := congrArg List.length hcontra
    simp at this

theorem findIdleWorker_some :
    ∀ (l : List PoolWorker) (i : ℕ), findIdleWorker l = some i →
      ∃ pw, l.get? i = some pw ∧ pw.busy = false := by
  intro l
  induction l with
  | nil => intro i h; simp [findIdleWorker] at h
  | cons w ws ih =>
    intro i h
    by_cases hb : w.busy
    · simp only [findIdleWorker, hb, if_true, Option.map_eq_some'] at h
      obtain ⟨j, hj, rfl⟩ := h
      obtain ⟨pw, hpw, hbusy⟩ := ih j hj
      exact ⟨pw, by simpa [List.get?] using hpw, hbusy⟩
    · simp [findIdleWorker, hb] at h
      subst h
      exact ⟨w, rfl, by simpa using hb⟩

theorem findIdleWorker_none :
    ∀ (l : List PoolWorker), findIdleWorker l = none → ∀ pw ∈ l, pw.busy = true := by
  intro l
  induction l with
  | nil => intro _ pw hpw; simp at hpw
  | cons w ws ih =>
    intro h pw hpw
    by_cases hb : w.busy
    · simp only [findIdleWorker, hb, if_true, Option.map_eq_none'] at h
      rcases List.mem_cons.mp hpw with rfl | hpw'
      · exact hb
      · exact ih h pw hpw'
    · simp [findIdleWorker, hb] at h

theorem task_id_lt {tasks : List Task}
    (hids : (tasks.map Task.id).Perm (List.range tasks.length)) :
    ∀ t ∈ tasks, t.id < tasks.length := by
  intro t ht
  have hmem : t.id ∈ tasks.map Task.id := List.mem_map_of_mem _ ht
  have := hids.mem_iff.mp hmem
  simpa using this

theorem task_id_inj {tasks : List Task}
    (hids : (tasks.map Task.id).Perm (List.range tasks.length)) :
    ∀ t ∈ tasks, ∀ t' ∈ tasks, t.id = t'.id → t = t' := by
  have hnodup : (tasks.map Task.id).Nodup := hids.nodup_iff.mpr (List.nodup_range _)
  exact fun t ht t' ht' h => List.inj_on_of_nodup_map hnodup ht ht' h

theorem inflightCount_pos {β : Type} {s : PoolState β} {wi : ℕ} {pw : PoolWorker}
    (hw : s.workers.get? wi = some pw) (hin : pw.inflight.isSome = true) :
    1 ≤ inflightCount s := by
  have hmem := get?_some_mem _ _ _ hw
  exact List.countP_pos_iff.mpr ⟨pw, hmem, hin⟩

theorem processNextTask_inv {β : Type} {f : Task → WorkerMsg β} {tasks : List Task}
    {s : PoolState β}
    (hinv : PoolInv f tasks s) (hzero : inflightCount s = 0) :
    PoolInv f tasks (processNextTask s) := by
  rcases hpend : s.pending with _ | ⟨task, rest⟩
  · rcases hres : s.resolvedVal with _ | arr0
    · have hs' : processNextTask s = { s with resolvedVal := some s.results } := by
        unfold processNextTask
        rw [hpend, hres]
      rw [hs']
      refine ⟨hinv.results_len, hinv.no_polls, hinv.inflight_le, hinv.busy_iff,
        hinv.inflight_mem, hinv.pending_mem, hinv.accounted, ?_,
        hinv.rejected_none, hinv.workers_ne⟩
      intro arr harr
      simp only [Option.some.injEq] at harr
      subst harr
      refine ⟨hinv.results_len, ?_⟩
      intro t ht
      rcases hinv.accounted t ht with h1 | h2 | h3
      · rw [hpend] at h1
        simp at h1
      · obtain ⟨wi, pw, hw, hinfl⟩ := h2
        have := inflightCount_pos hw (by rw [hinfl]; rfl)
        omega
      · exact h3
    · have hs' : processNextTask s = s := by
        unfold processNextTask
        rw [hpend, hres]
      rw [hs']
      exact hinv
  · rcases hfind : findIdleWorker s.workers with _ | w
    · exfalso
      rcases hws : s.workers with _ | ⟨w0, ws⟩
      · exact hinv.workers_ne hws
      · have hb := findIdleWorker_none _ hfind w0 (by rw [hws]; exact List.mem_cons_self _ _)
        have hbi := hinv.busy_iff 0 w0 (by rw [hws]; rfl)
        rw [hb] at hbi
        have := @inflightCount_pos β s 0 w0 (by rw [hws]; rfl) hbi.symm
        omega
    · obtain ⟨pw0, hpw0, hbusy0⟩ := findIdleWorker_some _ _ hfind
      have hin0 : pw0.inflight = none := by
        have hbi := hinv.busy_iff w pw0 hpw0
        rw [hbusy0] at hbi
        cases hh : pw0.inflight with
        | none => rfl
        | some t0 => rw [hh] at hbi; simp at hbi
      have hwlt : w < s.workers.length := get?_some_lt _ _ _ hpw0
      have htaskmem : task ∈ tasks := hinv.pending_mem task (by rw [hpend]; exact List.mem_cons_self _ _)
      have hs' : processNextTask s =
          { s with pending := rest, workers := s.workers.set w ⟨true, some task⟩ } := by
        unfold processNextTask
        rw [hpend, hfind]
      rw [hs']
      have hcount := countP_set (fun pw => pw.inflight.isSome) s.workers w pw0
        ⟨true, some task⟩ hpw0
      simp [hin0] at hcount
      constructor
      · exact hinv.results_len
      · exact hinv.no_polls
      · show (List.countP _ (s.workers.set w ⟨true, some task⟩)) ≤ 1
        have hz : inflightCount s = 0 := hzero
        unfold inflightCount at hz
        omega
      · intro wi pw hw
        by_cases hwi : w = wi
        · subst hwi
          rw [get?_set_self _ _ _ hwlt] at hw
          simp only [Option.some.injEq] at hw
          subst hw
          rfl
        · rw [get?_set_ne _ _ _ _ hwi] at hw
          exact hinv.busy_iff wi pw hw
      · intro wi pw t hw hinfl
        by_cases hwi : w = wi
        · subst hwi
          rw [get?_set_self _ _ _ hwlt] at hw
          simp only [Option.some.injEq] at hw
          subst hw
          simp only [Option.some.injEq] at hinfl
          subst hinfl
          exact htaskmem
        · rw [get?_set_ne _ _ _ _ hwi] at hw
          exact hinv.inflight_mem wi pw t hw hinfl
      · intro t ht
        exact hinv.pending_mem t (by rw [hpend]; exact List.mem_cons_of_mem _ ht)
      · intro t ht
        rcases hinv.accounted t ht with h1 | h2 | h3
        · rw [hpend] at h1
          rcases List.mem_cons.mp h1 with rfl | h1'
          · right; left
            exact ⟨w, ⟨true, some t⟩, get?_set_self _ _ _ hwlt, rfl⟩
          · left
            exact h1'
        · obtain ⟨wi, pw, hw, hinfl⟩ := h2
          by_cases hwi : w = wi
          · subst hwi
            rw [hpw0] at hw
            simp only [Option.some.injEq] at hw
            subst hw
            rw [hin0] at hinfl
            simp at hinfl
          · right; left
            exact ⟨wi, pw, by rw [get?_set_ne _ _ _ _ hwi]; exact hw, hinfl⟩
        · right; right
          exact h3
      · intro arr harr
        exact hinv.resolved_good arr harr
      · exact hinv.rejected_none
      · intro hnil
        have hlen := congrArg List.length hnil
        rw [List.length_set, List.length_nil] at hlen
        exact hinv.workers_ne (List.length_eq_zero.mp hlen)

theorem poolStep_inv {β : Type} {exec : Task → Except String β} {tasks : List Task}
    {s : PoolState β} {e : PoolEvent}
    (hids : (tasks.map Task.id).Perm (List.range tasks.length))
    (hinv : PoolInv (poolWorkerRespond exec) tasks s) :
    PoolInv (poolWorkerRespond exec) tasks (poolStep exec s e) := by
  cases e with
  | pollTimer =>
    have hs' : poolStep exec s .pollTimer = s := by
      simp only [poolStep]
      rw [hinv.no_polls]
      exact if_pos rfl
    rw [hs']
    exact hinv
  | deliver w =>
    rcases hw : s.workers.get? w with _ | pw
    · have hs' : poolStep exec s (.deliver w) = s := by
        simp only [poolStep, hw]
      rw [hs']
      exact hinv
    · rcases hin : pw.inflight with _ | task
      · have hs' : poolStep exec s (.deliver w) = s := by
          simp only [poolStep, hw, hin]
        rw [hs']
        exact hinv
      · have hs' : poolStep exec s (.deliver w) =
            processNextTask (handleResult s w (poolWorkerRespond exec task) task) := by
          simp only [poolStep, hw, hin]
        rw [hs']
        have htaskmem : task ∈ tasks := hinv.inflight_mem w pw task hw hin
        have hidlt : task.id < s.results.length := by
          rw [hinv.results_len]
          exact task_id_lt hids task htaskmem
        have hwlt : w < s.workers.length := get?_some_lt _ _ _ hw
        have hcount := countP_set (fun pw => pw.inflight.isSome) s.workers w pw
          ⟨false, none⟩ hw
        simp [hin] at hcount
        have hle := hinv.inflight_le
        unfold inflightCount at hle
        have hz1 : inflightCount (handleResult s w (poolWorkerRespond exec task) task) = 0 := by
          show List.countP (fun pw => pw.inflight.isSome) (s.workers.set w ⟨false, none⟩) = 0
          omega
        refine processNextTask_inv ?_ hz1
        constructor
        · show (s.results.set task.id _).length = tasks.length
          rw [List.length_set]
          exact hinv.results_len
        · exact hinv.no_polls
        · rw [hz1]
          omega
        · intro wi pw' hw'
          by_cases hwi : w = wi
          · subst hwi
            rw [show (handleResult s w (poolWorkerRespond exec task) task).workers =
              s.workers.set w ⟨false, none⟩ from rfl] at hw'
            rw [get?_set_self _ _ _ hwlt] at hw'
            simp only [Option.some.injEq] at hw'
            subst hw'
            rfl
          · rw [show (handleResult s w (poolWorkerRespond exec task) task).workers =
              s.workers.set w ⟨false, none⟩ from rfl] at hw'
            rw [get?_set_ne _ _ _ _ hwi] at hw'
            exact hinv.busy_iff wi pw' hw'
        · intro wi pw' t hw' hinfl'
          by_cases hwi : w = wi
          · subst hwi
            rw [show (handleResult s w (poolWorkerRespond exec task) task).workers =
              s.workers.set w ⟨false, none⟩ from rfl] at hw'
            rw [get?_set_self _ _ _ hwlt] at hw'
            simp only [Option.some.injEq] at hw'
            subst hw'
            simp at hinfl'
          · rw [show (handleResult s w (poolWorkerRespond exec task) task).workers =
              s.workers.set w ⟨false, none⟩ from rfl] at hw'
            rw [get?_set_ne _ _ _ _ hwi] at hw'
            exact hinv.inflight_mem wi pw' t hw' hinfl'
        · exact hinv.pending_mem
        · intro t ht
          rcases hinv.accounted t ht with h1 | h2 | h3
          · left
            exact h1
          · obtain ⟨wi, pw', hw', hinfl'⟩ := h2
            by_cases hwi : w = wi
            · subst hwi
              rw [hw] at hw'
              simp only [Option.some.injEq] at hw'
              subst hw'
              rw [hin] at hinfl'
              simp only [Option.some.injEq] at hinfl'
              right; right
              rw [← hinfl']
              show (s.results.set task.id (some (poolWorkerRespond exec task))).get? task.id = _
              rw [get?_set_self _ _ _ hidlt]
            · right; left
              refine ⟨wi, pw', ?_, hinfl'⟩
              rw [show (handleResult s w (poolWorkerRespond exec task) task).workers =
                s.workers.set w ⟨false, none⟩ from rfl]
              rw [get?_set_ne _ _ _ _ hwi]
              exact hw'
          · by_cases hid : t.id = task.id
            · have ht' : t = task := task_id_inj hids t ht task htaskmem hid
              subst ht'
              right; right
              show (s.results.set t.id (some (poolWorkerRespond exec t))).get? t.id = _
              rw [get?_set_self _ _ _ hidlt]
            · right; right
              show (s.results.set task.id (some (poolWorkerRespond exec task))).get? t.id = _
              rw [get?_set_ne _ _ _ _ (fun h => hid h.symm)]
              exact h3
        · intro arr harr
          exact hinv.resolved_good arr harr
        · exact hinv.rejected_none
        · intro hnil
          have hlen := congrArg List.length hnil
          rw [show (handleResult s w (poolWorkerRespond exec task) task).workers =
            s.workers.set w ⟨false, none⟩ from rfl, List.length_set, List.length_nil] at hlen
          exact hinv.workers_ne (List.length_eq_zero.mp hlen)

theorem initPoolState_inv {β : Type} (f : Task → WorkerMsg β) (tasks : List Task)
    (poolSize : ℕ) (hP : 1 ≤ poolSize) :
    PoolInv f tasks (initPoolState (β := β) tasks poolSize) ∧
      inflightCount (initPoolState (β := β) tasks poolSize) = 0 := by
  have hz : inflightCount (initPoolState (β := β) tasks poolSize) = 0 := by
    show List.countP (fun pw => pw.inflight.isSome)
      (List.replicate poolSize (⟨false, none⟩ : PoolWorker)) = 0
    rw [List.countP_eq_zero]
    intro pw hpw
    rw [List.eq_of_mem_replicate hpw]
    simp
  refine ⟨⟨?_, rfl, ?_, ?_, ?_, ?_, ?_, ?_, rfl, ?_⟩, hz⟩
  · exact List.length_replicate ..
  · rw [hz]
    omega
  · intro wi pw hw
    rw [List.eq_of_mem_replicate (get?_some_mem _ _ _ hw)]
    rfl
  · intro wi pw task hw hinfl
    rw [List.eq_of_mem_replicate (get?_some_mem _ _ _ hw)] at hinfl
    simp at hinfl
  · intro t ht
    exact ht
  · intro t ht
    left
    exact ht
  · intro arr harr
    simp [initPoolState] at harr
  · intro hnil
    have hlen := congrArg List.length hnil
    simp [initPoolState] at hlen
    omega

theorem scheduleStart_inv {β : Type} {exec : Task → Except String β} {tasks : List Task}
    {poolSize : ℕ} (hP : 1 ≤ poolSize) :
    PoolInv (poolWorkerRespond exec) tasks (scheduleStart (β := β) tasks poolSize) := by
  obtain ⟨hinv, hz⟩ := initPoolState_inv (poolWorkerRespond exec) tasks poolSize hP
  exact processNextTask_inv hinv hz

theorem poolRun_inv {β : Type} {exec : Task → Except String β} {tasks : List Task}
    {poolSize : ℕ}
    (hids : (tasks.map Task.id).Perm (List.range tasks.length))
    (hP : 1 ≤ poolSize) (evs : List PoolEvent) :
    PoolInv (poolWorkerRespond exec) tasks (poolRun exec tasks poolSize evs) := by
  unfold poolRun
  have hgen : ∀ (l : List PoolEvent) (s : PoolState β),
      PoolInv (poolWorkerRespond exec) tasks s →
      PoolInv (poolWorkerRespond exec) tasks (l.foldl (poolStep exec) s) := by
    intro l
    induction l with
    | nil => intro s h; exact h
    | cons e es ih =>
      intro s h
      exact ih _ (poolStep_inv hids h)
  exact hgen evs _ (scheduleStart_inv hP)

theorem processNextTask_preserves {β : Type} (s : PoolState β) :
    (processNextTask s).results = s.results ∧
    (processNextTask s).rejectedVal = s.rejectedVal := by
  rcases hpend : s.pending with _ | ⟨task, rest⟩
  · rcases hres : s.resolvedVal with _ | arr0
    · have hs' : processNextTask s = { s with resolvedVal := some s.results } := by
        unfold processNextTask
        rw [hpend, hres]
      rw [hs']
      exact ⟨rfl, rfl⟩
    · have hs' : processNextTask s = s := by
        unfold processNextTask
        rw [hpend, hres]
      rw [hs']
      exact ⟨rfl, rfl⟩
  · rcases hfind : findIdleWorker s.workers with _ | w
    · have hs' : processNextTask s = { s with queuedPolls := s.queuedPolls + 1 } := by
        unfold processNextTask
        rw [hpend, hfind]
      rw [hs']
      exact ⟨rfl, rfl⟩
    · have hs' : processNextTask s =
          { s with pending := rest, workers := s.workers.set w ⟨true, some task⟩ } := by
        unfold processNextTask
        rw [hpend, hfind]
      rw [hs']
      exact ⟨rfl, rfl⟩

theorem sess_stopped_frozen (evs : List SessEvent) :
    ∀ (s : Session), s.monitoring = false →
      (evs.foldl sessStep s).monitoring = false ∧
      (evs.foldl sessStep s).ticks = s.ticks ∧
      (s.monitorArmed = false → (evs.foldl sessStep s).monitorArmed = false) ∧
      (SessEvent.monitorFire ∈ evs → (evs.foldl sessStep s).monitorArmed = false) := by
  induction evs with
  | nil =>
    intro s hm
    exact ⟨hm, rfl, fun h => h, fun h => by simp at h⟩
  | cons e es ih =>
    intro s hm
    simp only [List.foldl_cons]
    have hstep : (sessStep s e).monitoring = false ∧ (sessStep s e).ticks = s.ticks ∧
        (e = SessEvent.monitorFire → (sessStep s e).monitorArmed = false) ∧
        (s.monitorArmed = false → (sessStep s e).monitorArmed = false) := by
      cases e with
      | monitorFire =>
        by_cases ha : s.monitorArmed
        · simp [sessStep, ha, hm]
        · simp only [Bool.not_eq_true] at ha
          simp [sessStep, ha, hm]
      | autoStopFire => simp [sessStep, hm]
      | stopSignal => simp [sessStep, hm]
    obtain ⟨hm1, ht1, harm1, harm2⟩ := hstep
    obtain ⟨im, it, ia, ifire⟩ := ih (sessStep s e) hm1
    refine ⟨im, by rw [it, ht1], fun h => ia (harm2 h), ?_⟩
    intro hmem
    rcases List.mem_cons.mp hmem with rfl | hmem'
    · exact ia (harm1 rfl)
    · exact ifire hmem'

theorem chunksIn_round (b : Bool) (n : ℕ) (tr : List LoopEvent) :
    chunksIn (.check b :: .chunk n :: .yieldCtl :: tr) = chunksIn tr + 1 := by
  simp [chunksIn, List.countP_cons]

theorem checksIn_round (b : Bool) (n : ℕ) (tr : List LoopEvent) :
    checksIn (.check b :: .chunk n :: .yieldCtl :: tr) = checksIn tr + 1 := by
  simp [checksIn, List.countP_cons]

theorem yieldsIn_round (b : Bool) (n : ℕ) (tr : List LoopEvent) :
    yieldsIn (.check b :: .chunk n :: .yieldCtl :: tr) = yieldsIn tr + 1 := by
  simp [yieldsIn, List.countP_cons]

theorem infiniteLoopTrace_counts (shouldStop : ℕ → Bool) (k : ℕ)
    (hstop : shouldStop k = true) :
    ∀ (fuel r : ℕ), r ≤ k → k < r + fuel →
      chunksIn (infiniteLoopTrace shouldStop fuel r) ≤ k - r ∧
      checksIn (infiniteLoopTrace shouldStop fuel r) =
        chunksIn (infiniteLoopTrace shouldStop fuel r) + 1 ∧
      yieldsIn (infiniteLoopTrace shouldStop fuel r) =
        chunksIn (infiniteLoopTrace shouldStop fuel r) := by
  intro fuel
  induction fuel with
  | zero => intro r h1 h2; omega
  | succ fuel ih =>
    intro r h1 h2
    by_cases hr : shouldStop r
    · rw [show infiniteLoopTrace shouldStop (fuel + 1) r = [.check true] from by
        rw [infiniteLoopTrace, if_pos hr]]
      refine ⟨?_, ?_, ?_⟩ <;> simp [chunksIn, checksIn, yieldsIn, List.countP_cons]
    · have hrk : r ≠ k := fun h => hr (h ▸ hstop)
      have htr : infiniteLoopTrace shouldStop (fuel + 1) r =
          .check false :: .chunk chunkInnerIterations :: .yieldCtl ::
            infiniteLoopTrace shouldStop fuel (r + 1) := by
        rw [infiniteLoopTrace, if_neg hr]
      obtain ⟨c1, c2, c3⟩ := ih (r + 1) (by omega) (by omega)
      rw [htr, chunksIn_round, checksIn_round, yieldsIn_round]
      omega

theorem infiniteLoopTrace_chunk_sizes (shouldStop : ℕ → Bool) :
    ∀ (fuel r n : ℕ), LoopEvent.chunk n ∈ infiniteLoopTrace shouldStop fuel r →
      n = chunkInnerIterations := by
  intro fuel
  induction fuel with
  | zero => intro r n h; simp [infiniteLoopTrace] at h
  | succ fuel ih =>
    intro r n h
    by_cases hr : shouldStop r
    · rw [infiniteLoopTrace, if_pos hr] at h
      simp at h
    · rw [infiniteLoopTrace, if_neg hr] at h
      rcases List.mem_cons.mp h with h1 | h1
      · simp at h1
      · rcases List.mem_cons.mp h1 with h2 | h2
        · simp at h2
          exact h2
        · rcases List.mem_cons.mp h2 with h3 | h3
          · simp at h3
          · exact ih (r + 1) n h3

theorem foldl_add_eq (l : List ℕ) : ∀ a : ℕ, l.foldl (fun x y => x + y) a = a + l.sum := by
  induction l with
  | nil => intro a; simp
  | cons x xs ih =>
    intro a
    rw [List.foldl_cons, ih (a + x), List.sum_cons]
    omega

theorem range'_sum_split (b : ℕ) : ∀ (a i : ℕ),
    (List.range' i (a + b)).sum = (List.range' i a).sum + (List.range' (i + a) b).sum := by
  intro a
  induction a with
  | zero => intro i; simp
  | succ a ih =>
    intro i
    have h1 : List.range' i (a + 1 + b) = i :: List.range' (i + 1) (a + b) := by
      rw [show a + 1 + b = (a + b) + 1 from by omega]
      rfl
    have h2 : List.range' i (a + 1) = i :: List.range' (i + 1) a := rfl
    rw [h1, h2, List.sum_cons, List.sum_cons, ih (i + 1)]
    rw [show i + 1 + a = i + (a + 1) from by omega]
    omega

theorem asyncLoopGo_eq : ∀ (fuel n i acc : ℕ), n - i ≤ fuel →
    asyncLoopGo n i acc = acc + (List.range' i (n - i)).sum := by
  intro fuel
  induction fuel with
  | zero =>
    intro n i acc h
    rw [asyncLoopGo]
    have hni : ¬ i < n := by omega
    rw [if_neg hni, show n - i = 0 from by omega]
    simp
  | succ fuel ih =>
    intro n i acc h
    rw [asyncLoopGo]
    by_cases hin : i < n
    · rw [if_pos hin]
      have hC : asyncChunkSize = 10000 := rfl
      rw [ih n (i + asyncChunkSize) _ (by omega), foldl_add_eq]
      by_cases hm : i + asyncChunkSize ≤ n
      · rw [min_eq_left hm, show i + asyncChunkSize - i = asyncChunkSize from by omega]
        have hsplit := range'_sum_split (n - (i + asyncChunkSize)) asyncChunkSize i
        rw [show asyncChunkSize + (n - (i + asyncChunkSize)) = n - i from by omega] at hsplit
        omega
      · rw [min_eq_right (by omega), show n - (i + asyncChunkSize) = 0 from by omega]
        simp
    · rw [if_neg hin, show n - i = 0 from by omega]
      simp

/-! ## Claims -/

/-- Claim C1: for every batch of N tasks whose ids are exactly 0..N-1,
scheduled by processTasksWithPool over a pool of P workers with
1 ≤ P < N, whenever the returned promise resolves — under any order of
worker completions and poll-timer firings — the resolved results array
has length N and its element at index id is the worker response produced
for the task with that id. -/
theorem pool_schedule_ordered {β : Type} (exec : Task → Except String β)
    (tasks : List Task) (poolSize : ℕ) (evs : List PoolEvent)
    (arr : List (Option (WorkerMsg β)))
    (hids : (tasks.map Task.id).Perm (List.range tasks.length))
    (hP : 1 ≤ poolSize) (_hPN : poolSize < tasks.length)
    (hres : (poolRun exec tasks poolSize evs).resolvedVal = some arr) :
    arr.length = tasks.length ∧
    ∀ t ∈ tasks, arr.get? t.id = some (some (poolWorkerRespond exec t)) :=
  (poolRun_inv hids hP evs).resolved_good arr hres

/-- Witness for pool_schedule_ordered: 3 tasks on a pool of 2 workers,
all completions delivered by worker 0, resolving with the id-ordered
results. -/
theorem pool_schedule_ordered_witness :
    (poolRun execOkW tasksW 2 deliverThrice).resolvedVal =
      some [some (.ok 5), some (.ok 6), some (.ok 7)] ∧
    ([some (WorkerMsg.ok 5), some (.ok 6), some (.ok 7)].length = tasksW.length ∧
      ∀ t ∈ tasksW, [some (WorkerMsg.ok 5), some (.ok 6), some (.ok 7)].get? t.id =
        some (some (poolWorkerRespond execOkW t))) :=
  ⟨by decide,
    pool_schedule_ordered execOkW tasksW 2 deliverThrice
      [some (.ok 5), some (.ok 6), some (.ok 7)]
      (by decide) (by decide) (by decide) (by decide)⟩

/-- Claim C2 counterexample: for the 3-task batch in which the task with
id 1 throws, the schedule promise does NOT reject: `reject` is never
invoked (rejectedVal stays none) and the promise resolves with a full
results array that contains results for ids 0 and 2 and the error object
at id 1. -/
theorem pool_error_fail_fast_counterexample :
    (poolRun execErrW tasksW 2 deliverThrice).rejectedVal = none ∧
    (poolRun execErrW tasksW 2 deliverThrice).resolvedVal =
      some [some (.ok 5), some (.err "boom"), some (.ok 7)] := by
  decide

/-- Claim C2 (amended): a task that throws during execution does not
reject the schedule promise: the pool never rejects, and whenever the
promise resolves the results array still has full length with the
`{ error: message }` object stored at the throwing task's id (fail-soft,
not fail-fast; still no retry). -/
theorem pool_task_error_resolves {β : Type} (exec : Task → Except String β)
    (tasks : List Task) (poolSize : ℕ) (evs : List PoolEvent)
    (arr : List (Option (WorkerMsg β))) (t : Task) (msg : String)
    (hids : (tasks.map Task.id).Perm (List.range tasks.length))
    (hP : 1 ≤ poolSize) (_hPN : poolSize < tasks.length)
    (ht : t ∈ tasks) (herr : exec t = Except.error msg)
    (hres : (poolRun exec tasks poolSize evs).resolvedVal = some arr) :
    (poolRun exec tasks poolSize evs).rejectedVal = none ∧
    arr.length = tasks.length ∧
    arr.get? t.id = some (some (WorkerMsg.err msg)) := by
  have hinv := @poolRun_inv β exec tasks poolSize hids hP evs
  refine ⟨hinv.rejected_none, (hinv.resolved_good arr hres).1, ?_⟩
  have h := (hinv.resolved_good arr hres).2 t ht
  simp only [poolWorkerRespond, herr] at h
  exact h

/-- Witness for pool_task_error_resolves: the id-1 task throws "boom" and
the promise still resolves with the error object at index 1. -/
theorem pool_task_error_resolves_witness :
    (poolRun execErrW tasksW 2 deliverThrice).rejectedVal = none ∧
    [some (WorkerMsg.ok 5), some (.err "boom"), some (.ok 7)].length = tasksW.length ∧
    [some (WorkerMsg.ok 5), some (.err "boom"), some (.ok 7)].get?
      (Task.mk 1 6).id = some (some (WorkerMsg.err "boom")) :=
  pool_task_error_resolves execErrW tasksW 2 deliverThrice
    [some (.ok 5), some (.err "boom"), some (.ok 7)] ⟨1, 6⟩ "boom"
    (by decide) (by decide) (by decide) (by decide) rfl (by decide)

/-- Claim C3: for every sequence of lag-monitor ticks the history length
never exceeds 100; after the 101st tick the window is exactly the samples
of ticks 2..101, so the sample recorded on the 1st tick has been evicted
(FIFO) and is absent whenever it differs from the later samples. -/
theorem lag_history_window (s : ℕ → ℚ) :
    (∀ n, (histAfter s n).length ≤ 100) ∧
    histAfter s 101 = (List.range' 1 100).map s ∧
    ((∀ i, 1 ≤ i → i ≤ 100 → s i ≠ s 0) → s 0 ∉ histAfter s 101) := by
  have h101 : histAfter s 101 = (List.range' 1 100).map s := by
    rw [histAfter_eq_drop, List.range_eq_range']
    rw [show (101 : ℕ) - 100 = 1 from by norm_num]
    rw [show List.range' 0 101 = 0 :: List.range' 1 100 from rfl]
    rfl
  refine ⟨histAfter_length_le s, h101, ?_⟩
  intro hne hmem
  rw [h101] at hmem
  rw [List.mem_map] at hmem
  obtain ⟨i, hi, heq⟩ := hmem
  rw [List.mem_range'_1] at hi
  exact hne i (by omega) (by omega) heq

/-- Witness for lag_history_window: with pairwise-distinct samples the
first sample is gone after 101 ticks. -/
theorem lag_history_window_witness : sampleFun 0 ∉ histAfter sampleFun 101 := by
  apply (lag_history_window sampleFun).2.2
  intro i h1 h2
  unfold sampleFun
  intro hc
  rw [Nat.cast_inj] at hc
  omega

/-- Claim C4 counterexample: at the tick with lastCheck = 0 and now = 1000
the recorded lag is 984 = now - (lastCheck + 16), not
now - (lastCheck + 1000) = 0, even though the callback's re-arm cadence
is 1000 ms: the 16 ms interval used in the expected-time formula is not
the cadence the recurring callback is scheduled at. -/
theorem monitor_lag_cadence_counterexample :
    (monitorTick ⟨0, []⟩ 1000).2.lag = 984 ∧
    (monitorTick ⟨0, []⟩ 1000).2.nextTickAt = 1000 + rearmDelayMs ∧
    (monitorTick ⟨0, []⟩ 1000).2.lag ≠ 1000 - (0 + rearmDelayMs) := by
  refine ⟨?_, ?_, ?_⟩ <;> norm_num [monitorTick, frameBudgetMs, rearmDelayMs]

/-- Claim C4 (amended): on each tick the recorded lag equals
now - (lastTick + 16), where 16 ms is a fixed frame-budget constant that
differs from the 1000 ms re-arm cadence; the sample is appended to the
window, the rolling average/min/max are recomputed over the current
window, and the next tick is re-armed 1000 ms relative to now (not
relative to the expected time). -/
theorem monitor_tick_spec (s : MonitorTickState) (now : ℚ) :
    (monitorTick s now).2.lag = now - (s.lastCheck + frameBudgetMs) ∧
    frameBudgetMs = 16 ∧ rearmDelayMs = 1000 ∧ frameBudgetMs ≠ rearmDelayMs ∧
    (monitorTick s now).1.lagHistory = pushSample s.lagHistory (monitorTick s now).2.lag ∧
    (monitorTick s now).2.avgLag * ((monitorTick s now).1.lagHistory.length : ℚ) =
      (monitorTick s now).1.lagHistory.sum ∧
    (monitorTick s now).2.minLag ∈ (monitorTick s now).1.lagHistory ∧
    (∀ x ∈ (monitorTick s now).1.lagHistory, (monitorTick s now).2.minLag ≤ x) ∧
    (monitorTick s now).2.maxLag ∈ (monitorTick s now).1.lagHistory ∧
    (∀ x ∈ (monitorTick s now).1.lagHistory, x ≤ (monitorTick s now).2.maxLag) ∧
    (monitorTick s now).1.lastCheck = now ∧
    (monitorTick s now).2.nextTickAt = now + rearmDelayMs := by
  have hne : pushSample s.lagHistory (now - (s.lastCheck + frameBudgetMs)) ≠ [] :=
    pushSample_ne_nil _ _
  have hlen : ((pushSample s.lagHistory (now - (s.lastCheck + frameBudgetMs))).length : ℚ) ≠ 0 := by
    rw [Nat.cast_ne_zero]
    intro h0
    exact hne (List.length_eq_zero.mp h0)
  obtain ⟨hminmem, hminle⟩ := listMin_spec _ hne
  obtain ⟨hmaxmem, hmaxle⟩ := listMax_spec _ hne
  refine ⟨rfl, rfl, rfl, by norm_num [frameBudgetMs, rearmDelayMs], rfl, ?_,
    hminmem, hminle, hmaxmem, hmaxle, rfl, rfl⟩
  show (pushSample s.lagHistory (now - (s.lastCheck + frameBudgetMs))).sum /
      ((pushSample s.lagHistory (now - (s.lastCheck + frameBudgetMs))).length : ℚ) *
      ((pushSample s.lagHistory (now - (s.lastCheck + frameBudgetMs))).length : ℚ) =
    (pushSample s.lagHistory (now - (s.lastCheck + frameBudgetMs))).sum
  exact div_mul_cancel₀ _ hlen

/-- Claim C5 counterexample: an external stop signal does not stop the
session: `waitForStop` installs no handler for it (the state is unchanged
and `monitoring` stays true), so the session does not terminate
immediately upon an external stop signal. -/
theorem session_stop_signal_counterexample :
    sessStep sessionStart .stopSignal = sessionStart ∧
    (sessStep sessionStart .stopSignal).monitoring = true :=
  ⟨rfl, rfl⟩

/-- Claim C5 (amended): the session terminates only via the automatic
maxDurationMs = 30000 timeout, which sets the running flag to false; an
external stop signal is a no-op (no handler is installed).  Once the
flag is false, no further lag sample is ever recorded and the recurring
monitor schedule is released: the one already-armed callback fires once
as a no-op without re-arming, after which no monitor timer remains. -/
theorem session_timeout_termination (s : Session) (evs : List SessEvent)
    (hstop : s.monitoring = false) :
    maxDurationMs = 30000 ∧
    (∀ s' : Session, (sessStep s' .autoStopFire).monitoring = false) ∧
    (∀ s' : Session, sessStep s' .stopSignal = s') ∧
    (evs.foldl sessStep s).monitoring = false ∧
    (evs.foldl sessStep s).ticks = s.ticks ∧
    (SessEvent.monitorFire ∈ evs → (evs.foldl sessStep s).monitorArmed = false) := by
  obtain ⟨hm, ht, _, hfire⟩ := sess_stopped_frozen evs s hstop
  refine ⟨rfl, ?_, fun s' => rfl, hm, ht, hfire⟩
  intro s'
  cases hm' : s'.monitoring
  · simp [sessStep, hm']
  · simp [sessStep, hm']

/-- Witness for session_timeout_termination: a stopped session stays
stopped, records no ticks, and releases its timer at the first fire. -/
theorem session_timeout_termination_witness :
    maxDurationMs = 30000 ∧
    (∀ s' : Session, (sessStep s' .autoStopFire).monitoring = false) ∧
    (∀ s' : Session, sessStep s' .stopSignal = s') ∧
    ([SessEvent.monitorFire, .stopSignal, .autoStopFire].foldl sessStep
      ⟨false, true, 5⟩).monitoring = false ∧
    ([SessEvent.monitorFire, .stopSignal, .autoStopFire].foldl sessStep
      ⟨false, true, 5⟩).ticks = (Session.mk false true 5).ticks ∧
    (SessEvent.monitorFire ∈ [SessEvent.monitorFire, .stopSignal, .autoStopFire] →
      ([SessEvent.monitorFire, .stopSignal, .autoStopFire].foldl sessStep
        ⟨false, true, 5⟩).monitorArmed = false) :=
  session_timeout_termination ⟨false, true, 5⟩
    [SessEvent.monitorFire, .stopSignal, .autoStopFire] rfl

/-- Claim C6: for every buffer length L ≥ 1 and worker count W with
1 ≤ W ≤ L, the ranges [i*(L/W), (i+1)*(L/W)) for i < W-1 and
[(W-1)*(L/W), L) for the last worker partition [0, L) exactly: every
index below L lies in exactly one worker's range. -/
theorem parallel_partition (L W k : ℕ) (hW : 1 ≤ W) (hWL : W ≤ L) (hk : k < L) :
    ∃! i, i < W ∧ workerStartIndex L W i ≤ k ∧ k < workerEndIndex L W i := by
  have hc0 : 0 < chunkSizeOf L W := by
    rw [chunkSizeOf]
    exact Nat.le_div_iff_mul_le (by omega) |>.mpr (by omega)
  have hdivle : k / chunkSizeOf L W * chunkSizeOf L W ≤ k := Nat.div_mul_le_self ..
  refine ⟨min (k / chunkSizeOf L W) (W - 1), ⟨?_, ?_, ?_⟩, ?_⟩
  · have := min_le_right (k / chunkSizeOf L W) (W - 1)
    omega
  · rw [workerStartIndex]
    calc min (k / chunkSizeOf L W) (W - 1) * chunkSizeOf L W
        ≤ k / chunkSizeOf L W * chunkSizeOf L W :=
          Nat.mul_le_mul_right _ (min_le_left _ _)
      _ ≤ k := hdivle
  · by_cases hj : min (k / chunkSizeOf L W) (W - 1) = W - 1
    · rw [workerEndIndex, if_pos hj]
      exact hk
    · have hjlt : k / chunkSizeOf L W < W - 1 := by
        rcases le_total (k / chunkSizeOf L W) (W - 1) with h | h
        · rcases Nat.lt_or_ge (k / chunkSizeOf L W) (W - 1) with h' | h'
          · exact h'
          · exact absurd (by omega : min (k / chunkSizeOf L W) (W - 1) = W - 1) hj
        · exact absurd (min_eq_right h) hj
      rw [workerEndIndex, if_neg hj, min_eq_left (by omega)]
      have := (Nat.div_lt_iff_lt_mul hc0).mp
        (Nat.lt_succ_self (k / chunkSizeOf L W))
      exact this
  · rintro y ⟨hyW, hys, hye⟩
    rw [workerStartIndex] at hys
    by_cases hy : y = W - 1
    · subst hy
      have hle : W - 1 ≤ k / chunkSizeOf L W :=
        (Nat.le_div_iff_mul_le hc0).mpr hys
      rw [min_eq_right hle]
    · rw [workerEndIndex, if_neg hy] at hye
      have h1 : y ≤ k / chunkSizeOf L W := (Nat.le_div_iff_mul_le hc0).mpr hys
      have h2 : k / chunkSizeOf L W < y + 1 := (Nat.div_lt_iff_lt_mul hc0).mpr hye
      have h3 : y = k / chunkSizeOf L W := by omega
      subst h3
      rw [min_eq_left (by omega)]

/-- Witness for parallel_partition: buffer length 100, 4 workers, index
37 lies in exactly one range. -/
theorem parallel_partition_witness :
    (1 : ℕ) ≤ 4 ∧ (4 : ℕ) ≤ 100 ∧ (37 : ℕ) < 100 ∧
    ∃! i, i < 4 ∧ workerStartIndex 100 4 i ≤ 37 ∧ 37 < workerEndIndex 100 4 i :=
  ⟨by decide, by decide, by decide,
    parallel_partition 100 4 37 (by decide) (by decide) (by decide)⟩

/-- Claim C7: in the concurrent-update mode every in-place element
mutation of the shared buffer performed by any of the four workers is an
Atomics.store; no plain indexed store occurs in any worker's write trace,
for every update count and every stream of random indices and values. -/
theorem concurrent_updates_all_atomic (updateCount : ℕ)
    (randIndex randValue : ℕ → ℕ → ℤ) :
    ∀ tr ∈ concurrentUpdates updateCount randIndex randValue,
      ∀ op ∈ tr, op.isAtomic = true := by
  intro tr htr op hop
  unfold concurrentUpdates at htr
  rw [List.mem_map] at htr
  obtain ⟨w, _, rfl⟩ := htr
  unfold updateSharedMemory at hop
  simp only [List.mem_map] at hop
  obtain ⟨i, _, rfl⟩ := hop
  rfl

/-- Claim C8: the interruptible infinite-loop demo works in fixed chunks
of 1,000,000 inner iterations (every chunk event in the trace has that
size), checks the cooperative stop flag exactly once per chunk (checks =
chunks + 1, the final check being the one that observes the flag), yields
exactly once between consecutive chunks (yields = chunks), and is bounded
by the 10000 ms hard timeout that sets the flag: if the flag reads true
at the k-th check, at most k chunks are ever executed — one chunk after
the flag is set, never more. -/
theorem infinite_loop_cancellation (shouldStop : ℕ → Bool) (k fuel : ℕ)
    (_hmono : ∀ i j, i ≤ j → shouldStop i = true → shouldStop j = true)
    (hstop : shouldStop k = true) (hfuel : k < fuel) :
    (∀ n, LoopEvent.chunk n ∈ infiniteLoopTrace shouldStop fuel 0 →
      n = chunkInnerIterations) ∧
    chunkInnerIterations = 1000000 ∧
    infiniteLoopMaxDurationMs = 10000 ∧
    chunksIn (infiniteLoopTrace shouldStop fuel 0) ≤ k ∧
    checksIn (infiniteLoopTrace shouldStop fuel 0) =
      chunksIn (infiniteLoopTrace shouldStop fuel 0) + 1 ∧
    yieldsIn (infiniteLoopTrace shouldStop fuel 0) =
      chunksIn (infiniteLoopTrace shouldStop fuel 0) := by
  obtain ⟨c1, c2, c3⟩ := infiniteLoopTrace_counts shouldStop k hstop fuel 0
    (by omega) (by omega)
  exact ⟨fun n h => infiniteLoopTrace_chunk_sizes shouldStop fuel 0 n h,
    rfl, rfl, by omega, c2, c3⟩

/-- Witness for infinite_loop_cancellation: the flag becomes set at check
2; exactly 2 chunks run, with 3 checks and 2 yields. -/
theorem infinite_loop_cancellation_witness :
    (∀ n, LoopEvent.chunk n ∈ infiniteLoopTrace (fun i => decide (2 ≤ i)) 4 0 →
      n = chunkInnerIterations) ∧
    chunkInnerIterations = 1000000 ∧
    infiniteLoopMaxDurationMs = 10000 ∧
    chunksIn (infiniteLoopTrace (fun i => decide (2 ≤ i)) 4 0) ≤ 2 ∧
    checksIn (infiniteLoopTrace (fun i => decide (2 ≤ i)) 4 0) =
      chunksIn (infiniteLoopTrace (fun i => decide (2 ≤ i)) 4 0) + 1 ∧
    yieldsIn (infiniteLoopTrace (fun i => decide (2 ≤ i)) 4 0) =
      chunksIn (infiniteLoopTrace (fun i => decide (2 ≤ i)) 4 0) :=
  infinite_loop_cancellation (fun i => decide (2 ≤ i)) 2 4
    (by
      intro i j hij hi
      rw [decide_eq_true_iff] at hi ⊢
      omega)
    (by decide) (by decide)

/-- Claim C9: when `processTask` throws inside a pool worker, the worker
catches the error and posts the ordinary message { error: message }
(no worker-level error event); the pool's one-shot handler stores that
object at results[task.id] and flips the worker back to idle, and the
deliver step leaves the rejection state untouched so the schedule promise
can still resolve with the error object in the results array. -/
theorem worker_error_message_flow {β : Type} (exec : Task → Except String β)
    (s : PoolState β) (w : ℕ) (pw : PoolWorker) (t : Task) (msg : String)
    (hw : s.workers.get? w = some pw) (hin : pw.inflight = some t)
    (hid : t.id < s.results.length) (herr : exec t = Except.error msg) :
    poolWorkerRespond exec t = WorkerMsg.err msg ∧
    (handleResult s w (poolWorkerRespond exec t) t).results.get? t.id =
      some (some (WorkerMsg.err msg)) ∧
    (handleResult s w (poolWorkerRespond exec t) t).workers.get? w =
      some ⟨false, none⟩ ∧
    (poolStep exec s (.deliver w)).results.get? t.id = some (some (WorkerMsg.err msg)) ∧
    (poolStep exec s (.deliver w)).rejectedVal = s.rejectedVal := by
  have h1 : poolWorkerRespond exec t = WorkerMsg.err msg := by
    simp only [poolWorkerRespond, herr]
  have hwlt : w < s.workers.length := get?_some_lt _ _ _ hw
  have h2 : (handleResult s w (poolWorkerRespond exec t) t).results.get? t.id =
      some (some (WorkerMsg.err msg)) := by
    rw [h1]
    show (s.results.set t.id (some (WorkerMsg.err msg))).get? t.id = _
    rw [get?_set_self _ _ _ hid]
  have hstep : poolStep exec s (.deliver w) =
      processNextTask (handleResult s w (poolWorkerRespond exec t) t) := by
    simp only [poolStep, hw, hin]
  refine ⟨h1, h2, ?_, ?_, ?_⟩
  · show (s.workers.set w ⟨false, none⟩).get? w = some ⟨false, none⟩
    exact get?_set_self _ _ _ hwlt
  · rw [hstep, (processNextTask_preserves _).1]
    exact h2
  · rw [hstep, (processNextTask_preserves _).2]
    rfl

/-- Witness for worker_error_message_flow: in the concrete mid-schedule
state, worker 0 holds the throwing id-1 task. -/
theorem worker_error_message_flow_witness :
    poolWorkerRespond execErrW ⟨1, 6⟩ = WorkerMsg.err "boom" ∧
    (handleResult poolMidState 0 (poolWorkerRespond execErrW ⟨1, 6⟩)
      ⟨1, 6⟩).results.get? (Task.mk 1 6).id = some (some (WorkerMsg.err "boom")) ∧
    (handleResult poolMidState 0 (poolWorkerRespond execErrW ⟨1, 6⟩)
      ⟨1, 6⟩).workers.get? 0 = some ⟨false, none⟩ ∧
    (poolStep execErrW poolMidState (.deliver 0)).results.get? (Task.mk 1 6).id =
      some (some (WorkerMsg.err "boom")) ∧
    (poolStep execErrW poolMidState (.deliver 0)).rejectedVal =
      poolMidState.rejectedVal :=
  worker_error_message_flow execErrW poolMidState 0 ⟨true, some ⟨1, 6⟩⟩ ⟨1, 6⟩ "boom"
    (by decide) (by decide) (by decide) rfl

/-- Claim C10: for every iteration count n, the chunked asynchronous
accumulation (chunks of 10000, inner range [i, min(i+10000, n))) computes
exactly the sum of the straight synchronous loop over 0..n-1, so the
final syncResult === asyncResult comparison always succeeds. -/
theorem async_sync_sum_agree (iterations : ℕ) :
    asyncLoopSum iterations = syncLoopSum iterations := by
  unfold asyncLoopSum syncLoopSum
  rw [asyncLoopGo_eq iterations iterations 0 0 (by omega), foldl_add_eq,
    List.range_eq_range', Nat.sub_zero]

/-- Witness for monitor_tick_spec: the tick at lastCheck 0, now 1000
records lag 984 = 1000 - (0 + 16). -/
theorem monitor_tick_spec_witness :
    (monitorTick ⟨0, []⟩ 1000).2.lag = 1000 - ((0 : ℚ) + frameBudgetMs) :=
  (monitor_tick_spec ⟨0, []⟩ 1000).1

/-- Witness for concurrent_updates_all_atomic: a concrete write of the
w = 0 worker trace under concrete oracles is an atomic store. -/
theorem concurrent_updates_all_atomic_witness :
    WriteOp.isAtomic (WriteOp.atomicStore 0 0) = true :=
  concurrent_updates_all_atomic 8 (fun _ i => (i : ℤ)) (fun _ i => (i : ℤ))
    ((updateSharedMemory 2 (fun i => (i : ℤ)) (fun i => (i : ℤ))).1) (by decide)
    (WriteOp.atomicStore 0 0) (by decide)

end NodeDemo
